import Mathlib

/-!
Verification of the core string-processing pipeline of `deepwiki-dl`
(`src/index.ts`): the outline parser `parseWikiStructure`, the filename
sanitizer `replaceInvalidFilenameCharacters`, and the content splitter
`splitWikiContents`.  Strings are modelled as `List Char` (JavaScript
strings, restricted to the code-point operations the program uses).
-/

namespace DeepwikiDL

/-- The JavaScript whitespace set used by `String.prototype.trim` and by
the regex class `\s`: WhiteSpace plus LineTerminator code points. -/
def isJsWs (c : Char) : Bool :=
  c.toNat = 0x9 ∨ c.toNat = 0xA ∨ c.toNat = 0xB ∨ c.toNat = 0xC ∨
  c.toNat = 0xD ∨ c.toNat = 0x20 ∨ c.toNat = 0xA0 ∨ c.toNat = 0x1680 ∨
  (0x2000 ≤ c.toNat ∧ c.toNat ≤ 0x200A) ∨ c.toNat = 0x2028 ∨
  c.toNat = 0x2029 ∨ c.toNat = 0x202F ∨ c.toNat = 0x205F ∨
  c.toNat = 0x3000 ∨ c.toNat = 0xFEFF

/-- The JavaScript line-terminator set: the code points that the regex
metacharacter `.` refuses to match. -/
def isLineTerm (c : Char) : Bool :=
  c.toNat = 0xA ∨ c.toNat = 0xD ∨ c.toNat = 0x2028 ∨ c.toNat = 0x2029

/-- A character matched by the regex class `[\d.]`. -/
def isDigitDot (c : Char) : Bool :=
  ('0'.toNat ≤ c.toNat ∧ c.toNat ≤ '9'.toNat) ∨ c.toNat = '.'.toNat

/-- Character list of a Lean string literal (JS strings as `List Char`). -/
def str (s : String) : List Char := s.data

/-- `String.prototype.trim`: strip leading and trailing JS whitespace. -/
def trimList (l : List Char) : List Char :=
  ((l.dropWhile isJsWs).reverse.dropWhile isJsWs).reverse

/-- `String.prototype.startsWith`: `u` is an initial run of `v`. -/
def leadsWith : List Char → List Char → Bool
  | [], _ => true
  | _ :: _, [] => false
  | a :: u, b :: v => a == b && leadsWith u v

/-- `u` occurs somewhere inside `v` as a contiguous run. -/
def hasSub (u v : List Char) : Prop := ∃ x y, v = x ++ u ++ y

/-- The pattern `pat` occurs in `c` starting exactly at position `p`. -/
def occursAt (c pat : List Char) (p : Nat) : Prop :=
  p + pat.length ≤ c.length ∧ (c.drop p).take pat.length = pat

instance occursAt.dec (c pat : List Char) (p : Nat) : Decidable (occursAt c pat p) := by
  unfold occursAt; infer_instance

/-- Scan positions `p, p+1, …` (at most `fuel` of them) for the first
occurrence of `pat` in `c`. -/
def scanFrom (c pat : List Char) : Nat → Nat → Option Nat
  | _, 0 => none
  | p, fuel + 1 =>
    if occursAt c pat p then some p else scanFrom c pat (p + 1) fuel

/-- `String.prototype.indexOf(pat, s)` for a non-empty pattern: position of
the first occurrence of `pat` at or after `s`, `none` when there is none. -/
def firstOccurFrom (c pat : List Char) (s : Nat) : Option Nat :=
  scanFrom c pat s (c.length + 1 - s)

/-! ## Outline parser (`parseWikiStructure`) -/

/-- One outline entry, as in the `WikiSection` interface of `src/index.ts`. -/
structure WikiSection where
  number : List Char
  title : List Char
  fullTitle : List Char
  deriving DecidableEq, Repr

/-- The `WikiStructure` interface of `src/index.ts`. -/
structure WikiStructure where
  sections : List WikiSection
  rawText : List Char
  deriving DecidableEq, Repr

/-- `String.prototype.split("\n")`. -/
def splitOnNl : List Char → List (List Char)
  | [] => [[]]
  | c :: rest =>
    match splitOnNl rest with
    | [] => [[]]
    | h :: t => if c = '\n' then [] :: h :: t else (c :: h) :: t

/-- The tail of the line regex, `\s+(.+)$`, applied to the text `s` that
follows the dotted-number token: greedy `\s+` with backtracking so that
`(.+)$` (one or more non-line-terminator characters reaching the end of the
line) still succeeds.  Returns the text captured by `(.+)`. -/
def matchTail (s : List Char) : Option (List Char) :=
  let w := s.takeWhile isJsWs
  let r := s.dropWhile isJsWs
  if r = [] then
    -- `s` is all whitespace: `\s+` backs off to leave exactly the last
    -- character for `(.+)`, which accepts it unless it is a line terminator.
    match s.getLast? with
    | none => none
    | some c => if 2 ≤ s.length ∧ ¬ isLineTerm c then some [c] else none
  else
    -- remainder after the maximal whitespace run: `(.+)$` takes all of it,
    -- provided the run is non-empty and no line terminator appears.
    if w ≠ [] ∧ r.all (fun c => ¬ isLineTerm c) then some r else none

/-- The line regex `/^\s*-\s+([\d.]+)\s+(.+)$/` of `parseWikiStructure`:
returns the two captured groups on success. -/
def lineMatch (l : List Char) : Option (List Char × List Char) :=
  match l.dropWhile isJsWs with
  | [] => none
  | c :: l2 =>
    if c = '-' then
      if l2.takeWhile isJsWs = [] then none
      else
        let l3 := l2.dropWhile isJsWs
        let num := l3.takeWhile isDigitDot
        if num = [] then none
        else
          match matchTail (l3.dropWhile isDigitDot) with
          | some g2 => some (num, g2)
          | none => none
    else none

/-- `parseWikiStructure` from `src/index.ts`: split into lines, keep the
lines matched by the regex, building a section from each. -/
def parseWikiStructure (structureText : List Char) : WikiStructure :=
  { sections :=
      (splitOnNl structureText).filterMap (fun line =>
        (lineMatch line).map (fun g =>
          let title := trimList g.2
          { number := g.1, title := title,
            fullTitle := g.1 ++ ' ' :: title })),
    rawText := structureText }

/-! ## Filename sanitizer (`replaceInvalidFilenameCharacters`) -/

/-- A character matched by the class `[<>:"/\\|?*\u0000-\u001F]`. -/
def isBadFilenameChar (c : Char) : Bool :=
  c.toNat = '<'.toNat ∨ c.toNat = '>'.toNat ∨ c.toNat = ':'.toNat ∨
  c.toNat = '"'.toNat ∨ c.toNat = '/'.toNat ∨ c.toNat = '\\'.toNat ∨
  c.toNat = '|'.toNat ∨ c.toNat = '?'.toNat ∨ c.toNat = '*'.toNat ∨
  c.toNat ≤ 0x1F

/-- `replaceInvalidFilenameCharacters` from `src/index.ts`: each forbidden
character is replaced, one-for-one, by `'-'`. -/
def replaceInvalidFilenameCharacters (filename : List Char) : List Char :=
  filename.map (fun c => if isBadFilenameChar c then '-' else c)

/-! ## Content splitter (`splitWikiContents`) -/

/-- The two exceptions `splitWikiContents` can throw, with the diagnostic
detail (`contents.trim()`) each carries in its message. -/
inductive SplitError where
  | invalidContent (detail : List Char)
  | invalidStructure (detail : List Char)
  deriving DecidableEq, Repr

/-- The output `Map<string, string>`, as an insertion-ordered association
list. -/
abbrev FileMap := List (List Char × List Char)

instance : DecidableEq (Except SplitError FileMap) := fun x y =>
  match x, y with
  | .ok a, .ok b =>
    if h : a = b then .isTrue (by rw [h])
    else .isFalse (by intro he; cases he; exact h rfl)
  | .ok _, .error _ => .isFalse (by intro he; cases he)
  | .error _, .ok _ => .isFalse (by intro he; cases he)
  | .error a, .error b =>
    if h : a = b then .isTrue (by rw [h])
    else .isFalse (by intro he; cases he; exact h rfl)

/-- JavaScript `Map.prototype.set`: an existing key keeps its position and
gets the new value; a new key is appended. -/
def mapSet (m : FileMap) (k v : List Char) : FileMap :=
  match m with
  | [] => [(k, v)]
  | (k', v') :: rest => if k' = k then (k, v) :: rest else (k', v') :: mapSet rest k v

/-- The anchor `"# Page: " + section.title` built by the splitter. -/
def pageMarker (sec : WikiSection) : List Char :=
  str "# Page: " ++ sec.title

/-- The inner `for (let nextIdx = sectionIndex + 1; …)` loop: position of
the next marker, trying the remaining sections in outline order and keeping
the first hit; defaults to the end of `contents`. -/
def findNextMarker (contents : List Char) (rest : List WikiSection) (start : Nat) : Nat :=
  match rest with
  | [] => contents.length
  | sec :: rs =>
    match firstOccurFrom contents (pageMarker sec) start with
    | some p => p
    | none => findNextMarker contents rs start

/-- The `while (currentPos < contents.length && sectionIndex < …)` loop of
`splitWikiContents`, one recursive call per iteration. -/
def splitLoop (contents : List Char) : List WikiSection → Nat → FileMap → FileMap
  | [], _, files => files
  | sec :: rest, currentPos, files =>
    if currentPos < contents.length then
      match firstOccurFrom contents (pageMarker sec) currentPos with
      | none => files
      | some markerPos =>
        let contentStart := markerPos + (pageMarker sec).length
        let contentEnd := findNextMarker contents rest contentStart
        let pageContent := trimList ((contents.drop contentStart).take (contentEnd - contentStart))
        let filename := replaceInvalidFilenameCharacters (sec.number ++ ' ' :: sec.title ++ str ".md")
        splitLoop contents rest contentEnd
          (mapSet files filename (str "# " ++ sec.fullTitle ++ '\n' :: '\n' :: pageContent))
    else files

/-- `splitWikiContents` from `src/index.ts`; the two `throw` statements
become the `Except.error` outcomes. -/
def splitWikiContents (contents : List Char) (st : WikiStructure) :
    Except SplitError FileMap :=
  if trimList contents = [] then .ok []
  else if ¬ leadsWith (str "# Page: ") contents then
    .error (.invalidContent (trimList contents))
  else if st.sections.length = 0 then
    .error (.invalidStructure (trimList contents))
  else .ok (splitLoop contents st.sections 0 [])

/-! ## Spec-side definitions and instrumentation -/

/-- Modelled from the spec claim C1: the body end as the *textually
nearest* subsequent anchor — the minimum, over all subsequent sections, of
the first occurrence position of that section's anchor at or after the body
start; end of content when none occurs. -/
def specNearestAnchorEnd (contents : List Char) (rest : List WikiSection) (start : Nat) : Nat :=
  (rest.filterMap (fun sec => firstOccurFrom contents (pageMarker sec) start)).foldr
    min contents.length

/-- Split a candidate number token at its dots. -/
def dotGroups : List Char → List (List Char)
  | [] => [[]]
  | c :: rest =>
    match dotGroups rest with
    | [] => [[]]
    | h :: t => if c = '.' then [] :: h :: t else (c :: h) :: t

/-- Modelled from the spec claim C3: a well-formed dotted-number token —
one or more non-empty decimal-digit groups separated by single `.`
characters (no leading/trailing dots, no consecutive dots). -/
def isSpecDottedNumber (l : List Char) : Bool :=
  (dotGroups l).all (fun g => ¬ g.isEmpty ∧ g.all Char.isDigit)

/-- The declarative reading of the line pattern: optional leading
whitespace, a literal `-`, one or more whitespace characters, a non-empty
run of `[\d.]` characters, one or more whitespace characters, and a
non-empty remainder of non-line-terminator characters reaching the end of
the line. -/
def LineShape (l w1 w2 num w3 t : List Char) : Prop :=
  l = w1 ++ '-' :: (w2 ++ (num ++ (w3 ++ t))) ∧
  (∀ c ∈ w1, isJsWs c = true) ∧
  w2 ≠ [] ∧ (∀ c ∈ w2, isJsWs c = true) ∧
  num ≠ [] ∧ (∀ c ∈ num, isDigitDot c = true) ∧
  w3 ≠ [] ∧ (∀ c ∈ w3, isJsWs c = true) ∧
  t ≠ [] ∧ (∀ c ∈ t, isLineTerm c = false)

/-- Instrumentation of `splitLoop`: for every executed iteration that
matches its section, the section together with its anchor position, body
start and body end, in execution order. -/
def spanTrace (contents : List Char) : List WikiSection → Nat → List (WikiSection × Nat × Nat × Nat)
  | [], _ => []
  | sec :: rest, currentPos =>
    if currentPos < contents.length then
      match firstOccurFrom contents (pageMarker sec) currentPos with
      | none => []
      | some markerPos =>
        (sec, markerPos, markerPos + (pageMarker sec).length,
          findNextMarker contents rest (markerPos + (pageMarker sec).length)) ::
        spanTrace contents rest
          (findNextMarker contents rest (markerPos + (pageMarker sec).length))
    else []

/-! ## Correctness of the substring search -/

theorem leadsWith_iff (u v : List Char) : leadsWith u v = true ↔ ∃ t, v = u ++ t := by
  induction u generalizing v with
  | nil => simp [leadsWith]
  | cons a u ih =>
    cases v with
    | nil => simp [leadsWith]
    | cons b v =>
      simp only [leadsWith, Bool.and_eq_true, beq_iff_eq, ih, List.cons_append]
      constructor
      · rintro ⟨rfl, t, rfl⟩; exact ⟨t, rfl⟩
      · rintro ⟨t, ht⟩
        injection ht with h1 h2
        exact ⟨h1.symm, t, h2⟩

theorem occursAt_le_length {c pat : List Char} {p : Nat} (h : occursAt c pat p) :
    p ≤ c.length :=
  le_trans (Nat.le_add_right _ _) h.1

theorem scanFrom_some {c pat : List Char} {p fuel q : Nat}
    (h : scanFrom c pat p fuel = some q) :
    p ≤ q ∧ occursAt c pat q ∧ ∀ r, p ≤ r → r < q → ¬ occursAt c pat r := by
  induction fuel generalizing p with
  | zero => simp [scanFrom] at h
  | succ fuel ih =>
    rw [scanFrom] at h
    by_cases hp : occursAt c pat p
    · rw [if_pos hp] at h
      cases h
      exact ⟨le_refl _, hp, fun r h1 h2 => absurd (lt_of_le_of_lt h1 h2) (lt_irrefl _)⟩
    · rw [if_neg hp] at h
      obtain ⟨h1, h2, h3⟩ := ih h
      refine ⟨le_trans (Nat.le_succ _) h1, h2, fun r hr1 hr2 => ?_⟩
      rcases Nat.eq_or_lt_of_le hr1 with rfl | hlt
      · exact hp
      · exact h3 r hlt hr2

theorem scanFrom_none {c pat : List Char} {p fuel : Nat}
    (h : scanFrom c pat p fuel = none) :
    ∀ q, p ≤ q → q < p + fuel → ¬ occursAt c pat q := by
  induction fuel generalizing p with
  | zero => intro q h1 h2; omega
  | succ fuel ih =>
    rw [scanFrom] at h
    by_cases hp : occursAt c pat p
    · rw [if_pos hp] at h; cases h
    · rw [if_neg hp] at h
      intro q h1 h2
      rcases Nat.eq_or_lt_of_le h1 with rfl | hlt
      · exact hp
      · exact ih h q hlt (by omega)

theorem firstOccurFrom_some {c pat : List Char} {s q : Nat}
    (h : firstOccurFrom c pat s = some q) :
    s ≤ q ∧ occursAt c pat q ∧ ∀ r, s ≤ r → r < q → ¬ occursAt c pat r :=
  scanFrom_some h

theorem firstOccurFrom_none {c pat : List Char} {s : Nat}
    (h : firstOccurFrom c pat s = none) :
    ∀ q, s ≤ q → ¬ occursAt c pat q := by
  intro q hq hocc
  have hql : q ≤ c.length := occursAt_le_length hocc
  exact scanFrom_none h q hq (by omega) hocc

theorem firstOccurFrom_self {c pat : List Char} {s : Nat} (h : occursAt c pat s) :
    firstOccurFrom c pat s = some s := by
  have hs : s ≤ c.length := occursAt_le_length h
  unfold firstOccurFrom
  have heq : c.length + 1 - s = (c.length - s) + 1 := by omega
  rw [heq, scanFrom, if_pos h]

theorem findNextMarker_le (contents : List Char) (rest : List WikiSection) (start : Nat) :
    findNextMarker contents rest start ≤ contents.length := by
  induction rest with
  | nil => exact le_refl _
  | cons sec rs ih =>
    rw [findNextMarker]
    cases hf : firstOccurFrom contents (pageMarker sec) start with
    | none => exact ih
    | some p => exact occursAt_le_length (firstOccurFrom_some hf).2.1

theorem findNextMarker_ge (contents : List Char) (rest : List WikiSection) {start : Nat}
    (h : start ≤ contents.length) :
    start ≤ findNextMarker contents rest start := by
  induction rest with
  | nil => exact h
  | cons sec rs ih =>
    rw [findNextMarker]
    cases hf : firstOccurFrom contents (pageMarker sec) start with
    | none => exact ih
    | some p => exact (firstOccurFrom_some hf).1

/-! ## Shape of parsed section numbers -/

theorem digitDot_not_bad {c : Char} (h : isDigitDot c = true) : isBadFilenameChar c = false := by
  unfold isDigitDot at h
  unfold isBadFilenameChar
  rw [decide_eq_true_eq] at h
  rw [decide_eq_false_iff_not]
  have e0 : '0'.toNat = 48 := by decide
  have e9 : '9'.toNat = 57 := by decide
  have ed : '.'.toNat = 46 := by decide
  have e1 : '<'.toNat = 60 := by decide
  have e2 : '>'.toNat = 62 := by decide
  have e3 : ':'.toNat = 58 := by decide
  have e4 : '"'.toNat = 34 := by decide
  have e5 : '/'.toNat = 47 := by decide
  have e6 : '\\'.toNat = 92 := by decide
  have e7 : '|'.toNat = 124 := by decide
  have e8 : '?'.toNat = 63 := by decide
  have e9s : '*'.toNat = 42 := by decide
  rw [e0, e9, ed] at h
  rw [e1, e2, e3, e4, e5, e6, e7, e8, e9s]
  omega

theorem digitDot_ne_underscore {c : Char} (h : isDigitDot c = true) : c ≠ '_' := by
  intro heq
  subst heq
  exact absurd h (by decide)

theorem lineMatch_number {l num g2 : List Char} (h : lineMatch l = some (num, g2)) :
    num ≠ [] ∧ ∀ c ∈ num, isDigitDot c = true := by
  unfold lineMatch at h
  split at h
  · exact absurd h (by simp)
  · rename_i c l2 heq
    by_cases hc : c = '-'
    · rw [if_pos hc] at h
      by_cases h1 : l2.takeWhile isJsWs = []
      · rw [if_pos h1] at h; cases h
      · rw [if_neg h1] at h
        simp only [] at h
        by_cases h2 : (l2.dropWhile isJsWs).takeWhile isDigitDot = []
        · rw [if_pos h2] at h; cases h
        · rw [if_neg h2] at h
          cases hmt : matchTail ((l2.dropWhile isJsWs).dropWhile isDigitDot) with
          | none => rw [hmt] at h; cases h
          | some g2' =>
            rw [hmt] at h
            injection h with h'
            injection h' with hnum hg2
            subst hnum
            exact ⟨h2, fun c hc' => List.mem_takeWhile_imp hc'⟩
    · rw [if_neg hc] at h; cases h

theorem parse_section_number {t : List Char} {sec : WikiSection}
    (h : sec ∈ (parseWikiStructure t).sections) :
    sec.number ≠ [] ∧ ∀ c ∈ sec.number, isDigitDot c = true := by
  unfold parseWikiStructure at h
  simp only [List.mem_filterMap, Option.map_eq_some'] at h
  obtain ⟨line, -, g, hg, rfl⟩ := h
  obtain ⟨num, g2⟩ := g
  exact lineMatch_number hg

theorem mem_mapSet {m : FileMap} {k v : List Char} {kv : List Char × List Char}
    (h : kv ∈ mapSet m k v) : kv ∈ m ∨ kv = (k, v) := by
  induction m with
  | nil =>
    rw [mapSet, List.mem_singleton] at h
    exact .inr h
  | cons p rest ih =>
    obtain ⟨k', v'⟩ := p
    rw [mapSet] at h
    split at h
    · rcases List.mem_cons.mp h with rfl | hm
      · exact .inr rfl
      · exact .inl (List.mem_cons_of_mem _ hm)
    · rcases List.mem_cons.mp h with rfl | hm
      · exact .inl (List.mem_cons_self _ _)
      · rcases ih hm with hm' | hm'
        · exact .inl (List.mem_cons_of_mem _ hm')
        · exact .inr hm'

theorem splitLoop_keys {contents : List Char} {secs : List WikiSection}
    (hsecs : ∀ sec ∈ secs, sec.number ≠ [] ∧ ∀ c ∈ sec.number, isDigitDot c = true) :
    ∀ pos files,
      (∀ kv ∈ files, ∃ c t, kv.1 = c :: t ∧ isDigitDot c = true) →
      ∀ kv ∈ splitLoop contents secs pos files,
        ∃ c t, kv.1 = c :: t ∧ isDigitDot c = true := by
  induction secs with
  | nil =>
    intro pos files hf kv hkv
    rw [splitLoop] at hkv
    exact hf kv hkv
  | cons sec rest ih =>
    intro pos files hf kv hkv
    rw [splitLoop] at hkv
    split at hkv
    · split at hkv
      · exact hf kv hkv
      · simp only [] at hkv
        refine ih (fun s hs => hsecs s (List.mem_cons_of_mem _ hs)) _ _ ?_ kv hkv
        intro kv' hkv'
        rcases mem_mapSet hkv' with hin | rfl
        · exact hf kv' hin
        · obtain ⟨hne, hall⟩ := hsecs sec (List.mem_cons_self _ _)
          cases hnum : sec.number with
          | nil => exact absurd hnum hne
          | cons c tl =>
            have hc : isDigitDot c = true := hall c (by rw [hnum]; exact List.mem_cons_self _ _)
            have hkey : replaceInvalidFilenameCharacters (c :: tl ++ ' ' :: sec.title ++ str ".md") =
                c :: replaceInvalidFilenameCharacters (tl ++ ' ' :: sec.title ++ str ".md") := by
              simp only [List.cons_append, replaceInvalidFilenameCharacters, List.map_cons]
              rw [digitDot_not_bad hc]
              simp
            exact ⟨c, _, hkey, hc⟩
    · exact hf kv hkv

/-! ## Characterization of the line regex -/

theorem digitDot_not_ws {c : Char} (h : isDigitDot c = true) : isJsWs c = false := by
  unfold isDigitDot at h
  unfold isJsWs
  rw [decide_eq_true_eq] at h
  rw [decide_eq_false_iff_not]
  have e0 : '0'.toNat = 48 := by decide
  have e9 : '9'.toNat = 57 := by decide
  have ed : '.'.toNat = 46 := by decide
  rw [e0, e9, ed] at h
  omega

theorem ws_not_digitDot {c : Char} (h : isJsWs c = true) : isDigitDot c = false := by
  by_cases hd : isDigitDot c = true
  · rw [digitDot_not_ws hd] at h; cases h
  · simpa using hd

theorem dropWhile_shape (p : Char → Bool) (l : List Char) :
    l.dropWhile p = [] ∨ ∃ c r, l.dropWhile p = c :: r ∧ p c = false := by
  induction l with
  | nil => exact .inl rfl
  | cons c l ih =>
    by_cases hc : p c = true
    · rw [List.dropWhile_cons_of_pos hc]; exact ih
    · exact .inr ⟨c, l, List.dropWhile_cons_of_neg (by simpa using hc), by simpa using hc⟩

theorem dropWhile_idem (p : Char → Bool) (l : List Char) :
    (l.dropWhile p).dropWhile p = l.dropWhile p := by
  rcases dropWhile_shape p l with h | ⟨c, r, h, hc⟩
  · rw [h]; rfl
  · rw [h, List.dropWhile_cons_of_neg (by simp [hc])]

theorem trimList_ws_append {w t : List Char} (h : ∀ c ∈ w, isJsWs c = true) :
    trimList (w ++ t) = trimList t := by
  unfold trimList
  rw [List.dropWhile_append_of_pos h]

theorem trimList_of_all_ws {l : List Char} (h : ∀ c ∈ l, isJsWs c = true) :
    trimList l = [] := by
  unfold trimList
  rw [List.dropWhile_eq_nil_iff.mpr h]
  simp

theorem trimList_dropWhile (l : List Char) :
    trimList (l.dropWhile isJsWs) = trimList l := by
  unfold trimList
  rw [dropWhile_idem]

theorem splitOnNl_no_nl {l : List Char} (h : '\n' ∉ l) : splitOnNl l = [l] := by
  induction l with
  | nil => rfl
  | cons c rest ih =>
    rw [splitOnNl]
    have hc : ¬ c = '\n' := fun hc => h (hc ▸ List.mem_cons_self _ _)
    have hrest : '\n' ∉ rest := fun hr => h (List.mem_cons_of_mem _ hr)
    rw [ih hrest]
    simp [hc]

theorem matchTail_some_shape {s g : List Char} (h : matchTail s = some g) :
    ∃ w3 t, s = w3 ++ t ∧ w3 ≠ [] ∧ (∀ c ∈ w3, isJsWs c = true) ∧ t ≠ [] ∧
      (∀ c ∈ t, isLineTerm c = false) := by
  unfold matchTail at h
  simp only [] at h
  split at h
  · rename_i hr
    have hall : ∀ x ∈ s, isJsWs x = true := List.dropWhile_eq_nil_iff.mp hr
    split at h
    · cases h
    · rename_i c hgl
      split at h
      · rename_i hcond
        injection h with h
        subst h
        have hsplit : s.dropLast ++ [c] = s :=
          List.dropLast_append_getLast? c (by rw [hgl]; rfl)
        refine ⟨s.dropLast, [c], hsplit.symm, ?_, ?_, by simp, ?_⟩
        · have hlen : s.dropLast.length = s.length - 1 := List.length_dropLast s
          intro hnil
          rw [hnil] at hlen
          simp at hlen
          omega
        · intro x hx
          exact hall x ((List.dropLast_sublist s).subset hx)
        · intro x hx
          rw [List.mem_singleton] at hx
          subst hx
          simpa using hcond.2
      · cases h
  · rename_i hr
    split at h
    · rename_i hcond
      injection h with h
      subst h
      refine ⟨s.takeWhile isJsWs, s.dropWhile isJsWs,
        (List.takeWhile_append_dropWhile _ _).symm, hcond.1,
        fun c hc => List.mem_takeWhile_imp hc, hr, fun c hc => ?_⟩
      have := List.all_eq_true.mp hcond.2 c hc
      simpa using this
    · cases h

theorem lineMatch_some_shape {l num g2 : List Char} (h : lineMatch l = some (num, g2)) :
    ∃ w1 w2 w3 t, LineShape l w1 w2 num w3 t := by
  unfold lineMatch at h
  split at h
  · cases h
  · rename_i c l2 hd
    by_cases hc : c = '-'
    case neg => rw [if_neg hc] at h; cases h
    case pos =>
      subst hc
      rw [if_pos rfl] at h
      by_cases h1 : l2.takeWhile isJsWs = []
      · rw [if_pos h1] at h; cases h
      · rw [if_neg h1] at h
        simp only [] at h
        by_cases h2 : (l2.dropWhile isJsWs).takeWhile isDigitDot = []
        · rw [if_pos h2] at h; cases h
        · rw [if_neg h2] at h
          cases hmt : matchTail ((l2.dropWhile isJsWs).dropWhile isDigitDot) with
          | none => rw [hmt] at h; cases h
          | some g2' =>
            rw [hmt] at h
            injection h with h'
            injection h' with hnum hg2
            subst hnum
            obtain ⟨w3, t, hs, hw3ne, hw3, htne, ht⟩ := matchTail_some_shape hmt
            refine ⟨l.takeWhile isJsWs, l2.takeWhile isJsWs, w3, t, ?_,
              fun x hx => List.mem_takeWhile_imp hx, h1,
              fun x hx => List.mem_takeWhile_imp hx, h2,
              fun x hx => List.mem_takeWhile_imp hx, hw3ne, hw3, htne, ht⟩
            conv_lhs => rw [← List.takeWhile_append_dropWhile isJsWs l, hd]
            congr 1
            congr 1
            conv_lhs => rw [← List.takeWhile_append_dropWhile isJsWs l2]
            congr 1
            conv_lhs =>
              rw [← List.takeWhile_append_dropWhile isDigitDot (l2.dropWhile isJsWs)]
            rw [hs]

theorem matchTail_of_shape {w3 t : List Char} (hw3ne : w3 ≠ [])
    (hw3 : ∀ c ∈ w3, isJsWs c = true) (htne : t ≠ [])
    (ht : ∀ c ∈ t, isLineTerm c = false) :
    ∃ g, matchTail (w3 ++ t) = some g ∧ trimList g = trimList (w3 ++ t) := by
  unfold matchTail
  simp only []
  have hrw : (w3 ++ t).dropWhile isJsWs = t.dropWhile isJsWs :=
    List.dropWhile_append_of_pos hw3
  rcases dropWhile_shape isJsWs t with hcase | ⟨rh, rtl, hcase, hrh⟩
  · -- the remainder after the whitespace run is itself all whitespace
    have htall : ∀ x ∈ t, isJsWs x = true := List.dropWhile_eq_nil_iff.mp hcase
    rw [if_pos (by rw [hrw, hcase])]
    have hne : w3 ++ t ≠ [] := fun he => htne (List.append_eq_nil.mp he).2
    have hglapp : (w3 ++ t).getLast? = some (t.getLast htne) := by
      rw [List.getLast?_append, List.getLast?_eq_getLast t htne]
      rfl
    rw [hglapp]
    simp only []
    have hg0t : t.getLast htne ∈ t := List.getLast_mem htne
    have hlen : 2 ≤ (w3 ++ t).length := by
      rw [List.length_append]
      have h1 : 0 < w3.length := List.length_pos.mpr hw3ne
      have h2 : 0 < t.length := List.length_pos.mpr htne
      omega
    rw [if_pos ⟨hlen, by simp [ht _ hg0t]⟩]
    refine ⟨[t.getLast htne], rfl, ?_⟩
    rw [trimList_of_all_ws
        (fun x hx => by rw [List.mem_singleton] at hx; subst hx; exact htall _ hg0t),
      trimList_of_all_ws (fun x hx => ?_)]
    rcases List.mem_append.mp hx with hx | hx
    · exact hw3 x hx
    · exact htall x hx
  · -- the remainder contains a non-whitespace character
    have hcond0 : (w3 ++ t).dropWhile isJsWs = rh :: rtl := by rw [hrw, hcase]
    rw [hcond0]
    rw [if_neg (by simp)]
    have hwne : (w3 ++ t).takeWhile isJsWs ≠ [] := by
      rw [List.takeWhile_append_of_pos hw3]
      simp [hw3ne]
    have hmem : ∀ x ∈ rh :: rtl, x ∈ t := by
      rw [← hcase]
      exact fun x hx => (List.dropWhile_sublist isJsWs).subset hx
    rw [if_pos ⟨hwne, List.all_eq_true.mpr fun x hx => by simp [ht x (hmem x hx)]⟩]
    refine ⟨rh :: rtl, rfl, ?_⟩
    have h2 : trimList (rh :: rtl) = trimList t := by
      rw [← hcase]
      exact trimList_dropWhile t
    rw [h2, trimList_ws_append hw3]

theorem lineMatch_of_shape {l w1 w2 num w3 t : List Char} (h : LineShape l w1 w2 num w3 t) :
    ∃ g2, lineMatch l = some (num, g2) ∧ trimList g2 = trimList (w3 ++ t) := by
  obtain ⟨rfl, hw1, hw2ne, hw2, hnumne, hnum, hw3ne, hw3, htne, ht⟩ := h
  obtain ⟨nh, ntl, rfl⟩ : ∃ a b, num = a :: b := by
    cases num with
    | nil => exact absurd rfl hnumne
    | cons a b => exact ⟨a, b, rfl⟩
  have hnh : isDigitDot nh = true := hnum nh (List.mem_cons_self _ _)
  have hntl : ∀ c ∈ ntl, isDigitDot c = true :=
    fun c hc => hnum c (List.mem_cons_of_mem _ hc)
  obtain ⟨w3h, w3tl, rfl⟩ : ∃ a b, w3 = a :: b := by
    cases w3 with
    | nil => exact absurd rfl hw3ne
    | cons a b => exact ⟨a, b, rfl⟩
  have hw3h : isJsWs w3h = true := hw3 w3h (List.mem_cons_self _ _)
  have hnnh : ¬ isJsWs nh = true := by simp [digitDot_not_ws hnh]
  have hnw3 : ¬ isDigitDot w3h = true := by simp [ws_not_digitDot hw3h]
  unfold lineMatch
  have hd : (w1 ++ '-' :: (w2 ++ (nh :: ntl ++ (w3h :: w3tl ++ t)))).dropWhile isJsWs
      = '-' :: (w2 ++ (nh :: ntl ++ (w3h :: w3tl ++ t))) := by
    rw [List.dropWhile_append_of_pos hw1, List.dropWhile_cons_of_neg (by decide)]
  rw [hd]
  simp only []
  rw [if_pos trivial]
  have htw2 : (w2 ++ (nh :: ntl ++ (w3h :: w3tl ++ t))).takeWhile isJsWs = w2 := by
    rw [List.takeWhile_append_of_pos hw2, List.cons_append,
      List.takeWhile_cons_of_neg hnnh, List.append_nil]
  have hdw2 : (w2 ++ (nh :: ntl ++ (w3h :: w3tl ++ t))).dropWhile isJsWs
      = nh :: (ntl ++ (w3h :: w3tl ++ t)) := by
    rw [List.dropWhile_append_of_pos hw2, List.cons_append,
      List.dropWhile_cons_of_neg hnnh]
  rw [htw2, if_neg hw2ne]
  simp only [hdw2]
  have htnum : (nh :: (ntl ++ (w3h :: w3tl ++ t))).takeWhile isDigitDot = nh :: ntl := by
    rw [List.takeWhile_cons_of_pos hnh, List.takeWhile_append_of_pos hntl,
      List.cons_append, List.takeWhile_cons_of_neg hnw3, List.append_nil]
  have hdnum : (nh :: (ntl ++ (w3h :: w3tl ++ t))).dropWhile isDigitDot
      = w3h :: w3tl ++ t := by
    rw [List.dropWhile_cons_of_pos hnh, List.dropWhile_append_of_pos hntl,
      List.cons_append, List.dropWhile_cons_of_neg hnw3, ← List.cons_append]
  rw [htnum, hdnum, if_neg (by simp)]
  obtain ⟨g, hmt, htr⟩ :=
    @matchTail_of_shape (w3h :: w3tl) t (by simp) hw3 htne ht
  rw [hmt]
  exact ⟨g, rfl, htr⟩

/-! ## Claim theorems -/

/-- C4: end-to-end scenario: the outline parsed from
`"- 1 Overview\n- 2 Installation"` against the concatenated content
`"# Page: Overview\n\nThis is the overview content.# Page: Installation\n\nInstallation instructions here."`
yields exactly the two-entry mapping `"1 Overview.md" ↦ "# 1 Overview\n\nThis is the overview content."`,
`"2 Installation.md" ↦ "# 2 Installation\n\nInstallation instructions here."`. -/
theorem c4_round_trip :
    splitWikiContents
      (str "# Page: Overview\n\nThis is the overview content.# Page: Installation\n\nInstallation instructions here.")
      (parseWikiStructure (str "- 1 Overview\n- 2 Installation")) =
    .ok [(str "1 Overview.md", str "# 1 Overview\n\nThis is the overview content."),
         (str "2 Installation.md", str "# 2 Installation\n\nInstallation instructions here.")] := by
  decide

/-- C5: the sanitizer is total and pointwise: output length equals input
length, a position holds `'-'` exactly when the input character there is in
the forbidden set (`< > : " / \ | ? *` or U+0000–U+001F) and the input
character otherwise, and the empty string maps to itself. -/
theorem c5_sanitize_pointwise (s : List Char) :
    (replaceInvalidFilenameCharacters s).length = s.length ∧
    (∀ p, (h : p < s.length) →
      (replaceInvalidFilenameCharacters s)[p]? =
        some (if isBadFilenameChar s[p] then '-' else s[p])) ∧
    replaceInvalidFilenameCharacters [] = [] := by
  refine ⟨List.length_map _ _, fun p h => ?_, rfl⟩
  rw [replaceInvalidFilenameCharacters, List.getElem?_map,
    List.getElem?_eq_getElem h, Option.map_some']

/-- Witness for C5 at the concrete input `"a<b"`, position 1. -/
theorem c5_sanitize_pointwise_witness :
    (replaceInvalidFilenameCharacters (str "a<b")).length = 3 ∧
    (replaceInvalidFilenameCharacters (str "a<b"))[1]? = some '-' := by
  have h := c5_sanitize_pointwise (str "a<b")
  refine ⟨by rw [h.1]; decide, ?_⟩
  rw [h.2.1 1 (by decide)]
  decide

/-- C6: the sanitizer is idempotent: sanitizing twice equals sanitizing
once (its output never contains a forbidden character, since `'-'` is not
forbidden). -/
theorem c6_sanitize_idempotent (x : List Char) :
    replaceInvalidFilenameCharacters (replaceInvalidFilenameCharacters x) =
      replaceInvalidFilenameCharacters x := by
  induction x with
  | nil => rfl
  | cons c rest ih =>
    simp only [replaceInvalidFilenameCharacters, List.map_cons, List.map_map] at ih ⊢
    refine congrArg₂ _ ?_ ih
    by_cases h : isBadFilenameChar c = true
    · rw [if_pos h]; decide
    · rw [if_neg h, if_neg h]

/-- C2: `splitWikiContents` errs exactly under the documented precedence:
whitespace-only content gives the empty mapping; otherwise content not
starting with `"# Page: "` gives `InvalidContent`; otherwise an empty
outline gives `InvalidStructure`; otherwise it succeeds.  Both errors carry
the trimmed content. -/
theorem c2_error_precedence (contents : List Char) (st : WikiStructure) :
    (trimList contents = [] → splitWikiContents contents st = .ok []) ∧
    (trimList contents ≠ [] → leadsWith (str "# Page: ") contents = false →
      splitWikiContents contents st = .error (.invalidContent (trimList contents))) ∧
    (trimList contents ≠ [] → leadsWith (str "# Page: ") contents = true →
      st.sections = [] →
      splitWikiContents contents st = .error (.invalidStructure (trimList contents))) ∧
    (trimList contents ≠ [] → leadsWith (str "# Page: ") contents = true →
      st.sections ≠ [] → ∃ m, splitWikiContents contents st = .ok m) := by
  refine ⟨fun h => ?_, fun h hl => ?_, fun h hl hs => ?_, fun h hl hs => ?_⟩
  · rw [splitWikiContents, if_pos h]
  · rw [splitWikiContents, if_neg h, if_pos (by simp [hl])]
  · rw [splitWikiContents, if_neg h, if_neg (by simp [hl]), if_pos (by simp [hs])]
  · refine ⟨splitLoop contents st.sections 0 [], ?_⟩
    rw [splitWikiContents, if_neg h, if_neg (by simp [hl]),
      if_neg (by simp [List.length_eq_zero, hs])]

/-- Witness for C2: each of the four branches exercised at a concrete
input. -/
theorem c2_error_precedence_witness :
    splitWikiContents (str "  ") (parseWikiStructure (str "- 1 x")) = .ok [] ∧
    splitWikiContents (str "Repository not found")
        (parseWikiStructure (str "- 1 x")) =
      .error (.invalidContent (trimList (str "Repository not found"))) ∧
    splitWikiContents (str "# Page: x hi")
        (parseWikiStructure (str "No list items here")) =
      .error (.invalidStructure (trimList (str "# Page: x hi"))) ∧
    (∃ m, splitWikiContents (str "# Page: x hi")
        (parseWikiStructure (str "- 1 x")) = .ok m) :=
  ⟨(c2_error_precedence _ _).1 (by decide),
   (c2_error_precedence _ _).2.1 (by decide) (by decide),
   (c2_error_precedence _ _).2.2.1 (by decide) (by decide) (by decide),
   (c2_error_precedence _ _).2.2.2 (by decide) (by decide) (by decide)⟩

/-- C1 counterexample: with the outline `[1 A, 2 B, 3 C]` and content
`"# Page: A\nx# Page: C\ny# Page: B\nz"`, section C's anchor (position 11)
is textually nearer to A's body start (9) than section B's anchor
(position 22), yet the code ends A's body at 22 — the first subsequent
section found by outline index, not the minimum position — so A's body
absorbs C's anchor. -/
theorem c1_counterexample :
    findNextMarker (str "# Page: A\nx# Page: C\ny# Page: B\nz")
        ((parseWikiStructure (str "- 1 A\n- 2 B\n- 3 C")).sections.drop 1) 9 = 22 ∧
    specNearestAnchorEnd (str "# Page: A\nx# Page: C\ny# Page: B\nz")
        ((parseWikiStructure (str "- 1 A\n- 2 B\n- 3 C")).sections.drop 1) 9 = 11 ∧
    (22 ≠ 11) ∧
    splitWikiContents (str "# Page: A\nx# Page: C\ny# Page: B\nz")
        (parseWikiStructure (str "- 1 A\n- 2 B\n- 3 C")) =
      .ok [(str "1 A.md", str "# 1 A\n\nx# Page: C\ny"),
           (str "2 B.md", str "# 2 B\n\nz")] := by
  decide

/-- C1 (amended): the body end is determined by the *first subsequent
section in outline order* whose anchor occurs at or after the body start:
if no subsequent anchor occurs the body runs to the end of the content, and
if `sck` is the first subsequent section with an occurrence then the body
ends at the least position at or after the body start where `sck`'s anchor
occurs. -/
theorem c1_body_end_first_by_index (contents : List Char) (rest : List WikiSection)
    (start : Nat) :
    ((∀ sec ∈ rest, ∀ p, start ≤ p → ¬ occursAt contents (pageMarker sec) p) →
      findNextMarker contents rest start = contents.length) ∧
    (∀ k sck, rest[k]? = some sck →
      (∀ sec ∈ rest.take k, ∀ p, start ≤ p → ¬ occursAt contents (pageMarker sec) p) →
      (∃ p, start ≤ p ∧ occursAt contents (pageMarker sck) p) →
      start ≤ findNextMarker contents rest start ∧
      occursAt contents (pageMarker sck) (findNextMarker contents rest start) ∧
      ∀ q, start ≤ q → q < findNextMarker contents rest start →
        ¬ occursAt contents (pageMarker sck) q) := by
  induction rest with
  | nil =>
    refine ⟨fun _ => rfl, fun k sck hk => ?_⟩
    simp at hk
  | cons sec rs ih =>
    constructor
    · intro h
      cases hf : firstOccurFrom contents (pageMarker sec) start with
      | some p =>
        obtain ⟨h1, h2, -⟩ := firstOccurFrom_some hf
        exact absurd h2 (h sec (List.mem_cons_self _ _) p h1)
      | none =>
        rw [findNextMarker, hf]
        exact ih.1 (fun s hs => h s (List.mem_cons_of_mem _ hs))
    · intro k sck hk htake hex
      cases k with
      | zero =>
        rw [List.getElem?_cons_zero, Option.some.injEq] at hk
        subst hk
        obtain ⟨p, hp1, hp2⟩ := hex
        cases hf : firstOccurFrom contents (pageMarker sec) start with
        | none => exact absurd hp2 (firstOccurFrom_none hf p hp1)
        | some q =>
          obtain ⟨h1, h2, h3⟩ := firstOccurFrom_some hf
          rw [findNextMarker, hf]
          exact ⟨h1, h2, h3⟩
      | succ k =>
        rw [List.getElem?_cons_succ] at hk
        have hsec : ∀ p, start ≤ p → ¬ occursAt contents (pageMarker sec) p := by
          intro p hp
          exact htake sec (by simp [List.take_succ_cons]) p hp
        cases hf : firstOccurFrom contents (pageMarker sec) start with
        | some p =>
          obtain ⟨h1, h2, -⟩ := firstOccurFrom_some hf
          exact absurd h2 (hsec p h1)
        | none =>
          rw [findNextMarker, hf]
          refine ih.2 k sck hk ?_ hex
          intro s hs p hp
          exact htake s (by simp [List.take_succ_cons, List.mem_cons_of_mem, hs]) p hp

/-- Witness for C1 (amended): with outline tail `[2 B, 3 C]` over the
counterexample content, section B (index 0) is the first by outline order
with an occurrence, and the body end 22 is its least occurrence at or
after 9. -/
theorem c1_body_end_first_by_index_witness :
    occursAt (str "# Page: A\nx# Page: C\ny# Page: B\nz")
      (pageMarker ⟨str "2", str "B", str "2 B"⟩)
      (findNextMarker (str "# Page: A\nx# Page: C\ny# Page: B\nz")
        [⟨str "2", str "B", str "2 B"⟩, ⟨str "3", str "C", str "3 C"⟩] 9) :=
  ((c1_body_end_first_by_index (str "# Page: A\nx# Page: C\ny# Page: B\nz")
      [⟨str "2", str "B", str "2 B"⟩, ⟨str "3", str "C", str "3 C"⟩] 9).2
    0 ⟨str "2", str "B", str "2 B"⟩ (by decide) (by intro s hs; simp at hs)
    ⟨22, by decide, by decide⟩).2.1

/-- C8 counterexample: the outline line `"- . x"` parses (the regex class
`[\d.]+` accepts a lone dot), and splitting matching content yields the key
`". x.md"`, which begins with `'.'` — not a decimal digit as the claim
states. -/
theorem c8_counterexample :
    splitWikiContents (str "# Page: x hello") (parseWikiStructure (str "- . x")) =
      .ok [(str ". x.md", str "# . x\n\nhello")] ∧
    (str ". x.md")[0]? = some '.' ∧ Char.isDigit '.' = false := by
  decide

/-- C8 (amended): for every outline produced by `parseWikiStructure` and
every content string, every key of a successful split starts with a
character from the regex class `[\d.]` (a decimal digit or a dot) — hence
never with an underscore, so no key collides with the reserved name
`"_wiki_structure.md"`. -/
theorem c8_keys_never_underscore (structureText contents : List Char) (m : FileMap)
    (h : splitWikiContents contents (parseWikiStructure structureText) = .ok m) :
    ∀ kv ∈ m, ∃ c t, kv.1 = c :: t ∧ isDigitDot c = true ∧ c ≠ '_' ∧
      kv.1 ≠ str "_wiki_structure.md" := by
  have hmain : ∀ kv ∈ m, ∃ c t, kv.1 = c :: t ∧ isDigitDot c = true := by
    unfold splitWikiContents at h
    split at h
    · injection h with h
      subst h
      intro kv hkv
      simp at hkv
    · split at h
      · cases h
      · split at h
        · cases h
        · injection h with h
          subst h
          exact splitLoop_keys (fun sec hs => parse_section_number hs) 0 []
            (fun kv hkv => by simp at hkv)
  intro kv hkv
  obtain ⟨c, t, hk, hc⟩ := hmain kv hkv
  refine ⟨c, t, hk, hc, digitDot_ne_underscore hc, ?_⟩
  intro hcol
  rw [hk] at hcol
  have : str "_wiki_structure.md" = '_' :: str "wiki_structure.md" := by decide
  rw [this] at hcol
  injection hcol with h1 h2
  exact digitDot_ne_underscore hc h1

/-- Witness for C8 (amended) at a concrete outline and content. -/
theorem c8_keys_never_underscore_witness :
    ∃ c t, (str "1 x.md", str "# 1 x\n\nhi").1 = c :: t ∧ isDigitDot c = true ∧ c ≠ '_' ∧
      (str "1 x.md", str "# 1 x\n\nhi").1 ≠ str "_wiki_structure.md" :=
  c8_keys_never_underscore (str "- 1 x") (str "# Page: x hi")
    [(str "1 x.md", str "# 1 x\n\nhi")] (by decide)
    (str "1 x.md", str "# 1 x\n\nhi") (by simp)

/-! ## Loop instrumentation lemmas -/

theorem mapSet_length_le (m : FileMap) (k v : List Char) :
    (mapSet m k v).length ≤ m.length + 1 := by
  induction m with
  | nil => simp [mapSet]
  | cons p rest ih =>
    obtain ⟨k', v'⟩ := p
    rw [mapSet]
    split
    · simp
    · simpa using ih

theorem splitLoop_length_le (contents : List Char) (secs : List WikiSection) :
    ∀ pos files, (splitLoop contents secs pos files).length ≤
      files.length + (spanTrace contents secs pos).length := by
  induction secs with
  | nil =>
    intro pos files
    rw [splitLoop, spanTrace]
    simp
  | cons sec rest ih =>
    intro pos files
    rw [splitLoop, spanTrace]
    by_cases hp : pos < contents.length
    · rw [if_pos hp, if_pos hp]
      cases hf : firstOccurFrom contents (pageMarker sec) pos with
      | none => simp
      | some markerPos =>
        simp only [List.length_cons]
        refine le_trans (ih _ _) ?_
        refine le_trans (Nat.add_le_add_right (mapSet_length_le _ _ _) _) ?_
        omega
    · rw [if_neg hp, if_neg hp]
      simp

theorem spanTrace_length_le (contents : List Char) (secs : List WikiSection) :
    ∀ pos, (spanTrace contents secs pos).length ≤ secs.length := by
  induction secs with
  | nil => intro pos; rw [spanTrace]; simp
  | cons sec rest ih =>
    intro pos
    rw [spanTrace]
    split
    · cases hf : firstOccurFrom contents (pageMarker sec) pos with
      | none => simp
      | some markerPos =>
        simp only [List.length_cons, List.length_cons]
        exact Nat.succ_le_succ (ih _)
    · simp

theorem spanTrace_spans (contents : List Char) (secs : List WikiSection) :
    ∀ pos, ∀ sp ∈ spanTrace contents secs pos,
      pos ≤ sp.2.1 ∧ sp.2.2.1 = sp.2.1 + (pageMarker sp.1).length ∧
      sp.2.2.1 ≤ sp.2.2.2 ∧ sp.2.2.2 ≤ contents.length := by
  induction secs with
  | nil => intro pos sp hsp; rw [spanTrace] at hsp; simp at hsp
  | cons sec rest ih =>
    intro pos sp hsp
    rw [spanTrace] at hsp
    split at hsp
    · cases hf : firstOccurFrom contents (pageMarker sec) pos with
      | none => rw [hf] at hsp; simp at hsp
      | some markerPos =>
        rw [hf] at hsp
        obtain ⟨hge, hocc, -⟩ := firstOccurFrom_some hf
        have hcs : markerPos + (pageMarker sec).length ≤ contents.length := hocc.1
        rcases List.mem_cons.mp hsp with rfl | hmem
        · exact ⟨hge, rfl, findNextMarker_ge _ _ hcs, findNextMarker_le _ _ _⟩
        · obtain ⟨h1, h2, h3, h4⟩ := ih _ sp hmem
          exact ⟨le_trans (by omega) (le_trans (findNextMarker_ge _ _ hcs) h1), h2, h3, h4⟩
    · simp at hsp

theorem spanTrace_chain (contents : List Char) (secs : List WikiSection) :
    ∀ pos, List.Chain' (fun s1 s2 => s1.2.2.2 ≤ s2.2.1) (spanTrace contents secs pos) := by
  induction secs with
  | nil => intro pos; rw [spanTrace]; exact List.chain'_nil
  | cons sec rest ih =>
    intro pos
    rw [spanTrace]
    split
    · cases hf : firstOccurFrom contents (pageMarker sec) pos with
      | none => exact List.chain'_nil
      | some markerPos =>
        simp only []
        rw [List.chain'_cons']
        refine ⟨fun sp hsp => ?_, ih _⟩
        have hmem : sp ∈ spanTrace contents rest
            (findNextMarker contents rest (markerPos + (pageMarker sec).length)) :=
          List.mem_of_mem_head? hsp
        exact (spanTrace_spans contents rest _ sp hmem).1
    · exact List.chain'_nil

theorem spanTrace_cursor_chain (contents : List Char) (secs : List WikiSection) :
    ∀ pos, List.Chain' (· ≤ ·)
      (pos :: (spanTrace contents secs pos).map (fun sp => sp.2.2.2)) := by
  induction secs with
  | nil => intro pos; rw [spanTrace]; simp
  | cons sec rest ih =>
    intro pos
    rw [spanTrace]
    split
    · cases hf : firstOccurFrom contents (pageMarker sec) pos with
      | none => simp
      | some markerPos =>
        simp only [List.map_cons]
        rw [List.chain'_cons]
        obtain ⟨hge, hocc, -⟩ := firstOccurFrom_some hf
        have hcs : markerPos + (pageMarker sec).length ≤ contents.length := hocc.1
        exact ⟨le_trans (by omega) (findNextMarker_ge _ _ hcs), ih _⟩
    · simp

/-- C9: the splitter's scan terminates: its iteration trace has at most one
entry per outline section (the section index rises by exactly one each
iteration — the trace and the loop recurse on the tail of the section
list), the cursor sequence (initial position followed by each iteration's
body end) never decreases, and each iteration adds at most one mapping
entry. -/
theorem c9_terminates (contents : List Char) (secs : List WikiSection) (pos : Nat) :
    (spanTrace contents secs pos).length ≤ secs.length ∧
    List.Chain' (· ≤ ·) (pos :: (spanTrace contents secs pos).map (fun sp => sp.2.2.2)) ∧
    ∀ files, (splitLoop contents secs pos files).length ≤
      files.length + (spanTrace contents secs pos).length :=
  ⟨spanTrace_length_le contents secs pos, spanTrace_cursor_chain contents secs pos,
   fun files => splitLoop_length_le contents secs pos files⟩

/-- C10: the matched spans are ordered and pairwise disjoint: every span's
anchor position is at or after the enclosing scan position, its body starts
exactly at its anchor's end, its body end is at or after its body start and
within the content, consecutive spans satisfy body-end ≤ next anchor
position, and a successful split yields at most one entry per outline
section. -/
theorem c10_spans_disjoint (contents : List Char) (secs : List WikiSection) (pos : Nat)
    (st : WikiStructure) (m : FileMap) :
    (∀ sp ∈ spanTrace contents secs pos,
      pos ≤ sp.2.1 ∧ sp.2.2.1 = sp.2.1 + (pageMarker sp.1).length ∧
      sp.2.2.1 ≤ sp.2.2.2 ∧ sp.2.2.2 ≤ contents.length) ∧
    List.Chain' (fun s1 s2 => s1.2.2.2 ≤ s2.2.1) (spanTrace contents secs pos) ∧
    (splitWikiContents contents st = .ok m → m.length ≤ st.sections.length) := by
  refine ⟨spanTrace_spans contents secs pos, spanTrace_chain contents secs pos, fun h => ?_⟩
  unfold splitWikiContents at h
  split at h
  · injection h with h; subst h; simp
  · split at h
    · cases h
    · split at h
      · cases h
      · injection h with h
        subst h
        calc (splitLoop contents st.sections 0 []).length
            ≤ [].length + (spanTrace contents st.sections 0).length :=
              splitLoop_length_le _ _ _ _
          _ ≤ st.sections.length := by
              simpa using spanTrace_length_le contents st.sections 0

/-- Witness for C10 at a concrete successful split. -/
theorem c10_spans_disjoint_witness :
    [(str "1 x.md", str "# 1 x\n\nhi")].length ≤
      (parseWikiStructure (str "- 1 x")).sections.length :=
  (c10_spans_disjoint (str "# Page: x hi") [] 0 (parseWikiStructure (str "- 1 x"))
    [(str "1 x.md", str "# 1 x\n\nhi")]).2.2 (by decide)

/-- C3 counterexample: the line `"- .. x"` is accepted by the parser — the
regex class `[\d.]+` matches the token `".."` — although `".."` is not a
dotted-number token in the claim's sense (digit groups separated by single
dots): the claim's "only if" direction fails. -/
theorem c3_counterexample :
    (parseWikiStructure (str "- .. x")).sections =
      [⟨str "..", str "x", str ".. x"⟩] ∧
    isSpecDottedNumber (str "..") = false := by
  decide

/-- C3 (amended): for a single line (no newline), the parser appends a
section if and only if the line is optional whitespace, `'-'`, one or more
whitespace characters, a non-empty run of characters from `[\d.]` (not
necessarily a well-formed dotted number), one or more whitespace
characters, and a non-empty remainder of non-line-terminator characters;
the section's number is that run and its title is the trimmed remainder
after the run.  All other lines are ignored and parsing never fails. -/
theorem c3_line_accepted_iff (l : List Char) (hnl : '\n' ∉ l) :
    ((parseWikiStructure l).sections ≠ [] ↔
      ∃ w1 w2 num w3 t, LineShape l w1 w2 num w3 t) ∧
    (∀ w1 w2 num w3 t, LineShape l w1 w2 num w3 t →
      (parseWikiStructure l).sections =
        [⟨num, trimList (w3 ++ t), num ++ ' ' :: trimList (w3 ++ t)⟩]) := by
  have hparse : (parseWikiStructure l).sections =
      match lineMatch l with
      | some g => [⟨g.1, trimList g.2, g.1 ++ ' ' :: trimList g.2⟩]
      | none => [] := by
    unfold parseWikiStructure
    rw [splitOnNl_no_nl hnl]
    cases hm : lineMatch l with
    | none => simp [hm]
    | some g => simp [hm]
  constructor
  · rw [hparse]
    constructor
    · intro hne
      cases hm : lineMatch l with
      | none => rw [hm] at hne; simp at hne
      | some g =>
        obtain ⟨num, g2⟩ := g
        obtain ⟨w1, w2, w3, t, hs⟩ := lineMatch_some_shape hm
        exact ⟨w1, w2, num, w3, t, hs⟩
    · rintro ⟨w1, w2, num, w3, t, hs⟩
      obtain ⟨g2, hm, -⟩ := lineMatch_of_shape hs
      rw [hm]
      simp
  · intro w1 w2 num w3 t hs
    obtain ⟨g2, hm, htrim⟩ := lineMatch_of_shape hs
    rw [hparse, hm]
    simp only []
    rw [htrim]

/-- Witness for C3 (amended) at the line `"- 1.2  Guide"`. -/
theorem c3_line_accepted_iff_witness :
    (parseWikiStructure (str "- 1.2  Guide")).sections =
      [⟨str "1.2", trimList (str " " ++ str " Guide"),
        str "1.2" ++ ' ' :: trimList (str " " ++ str " Guide")⟩] :=
  (c3_line_accepted_iff (str "- 1.2  Guide") (by decide)).2
    [] (str " ") (str "1.2") (str " ") (str " Guide")
    ⟨by decide, by decide, by decide, by decide, by decide, by decide,
     by decide, by decide, by decide, by decide⟩

/-! ## Substring preservation through trimming -/

theorem trimList_eq_nil_iff {l : List Char} :
    trimList l = [] ↔ ∀ c ∈ l, isJsWs c = true := by
  unfold trimList
  rw [List.reverse_eq_nil_iff, List.dropWhile_eq_nil_iff]
  constructor
  · intro h c hc
    rw [← List.takeWhile_append_dropWhile isJsWs l] at hc
    rcases List.mem_append.mp hc with hc | hc
    · exact List.mem_takeWhile_imp hc
    · exact h c (by rwa [List.mem_reverse])
  · intro h c hc
    exact h c ((List.dropWhile_sublist _).subset (List.mem_reverse.mp hc))

theorem occursAt_append (x pat y : List Char) : occursAt (x ++ pat ++ y) pat x.length := by
  constructor
  · simp [List.length_append]
  · rw [List.append_assoc, List.drop_left, List.take_left]

theorem hasSub_append_left {u w : List Char} (z : List Char) (h : hasSub u w) :
    hasSub u (z ++ w) := by
  obtain ⟨x, y, rfl⟩ := h
  exact ⟨z ++ x, y, by simp⟩

theorem hasSub_reverse {u v : List Char} (h : hasSub u v) :
    hasSub u.reverse v.reverse := by
  obtain ⟨x, y, rfl⟩ := h
  exact ⟨y.reverse, x.reverse, by simp⟩

theorem hasSub_dropWhile_ws {u v : List Char} (hne : u ≠ [])
    (hh : isJsWs u.headI = false) (h : hasSub u v) :
    hasSub u (v.dropWhile isJsWs) := by
  obtain ⟨x, y, rfl⟩ := h
  induction x with
  | nil =>
    cases u with
    | nil => exact absurd rfl hne
    | cons uh utl =>
      rw [List.nil_append, List.cons_append,
        List.dropWhile_cons_of_neg (by simpa using hh)]
      exact ⟨[], y, by simp⟩
  | cons c x ih =>
    by_cases hc : isJsWs c = true
    · have harr : (c :: x) ++ u ++ y = c :: (x ++ u ++ y) := by simp
      rw [harr, List.dropWhile_cons_of_pos hc]
      exact ih
    · refine ⟨c :: x, y, ?_⟩
      have harr : (c :: x) ++ u ++ y = c :: (x ++ u ++ y) := by simp
      rw [harr, List.dropWhile_cons_of_neg hc]

theorem hasSub_trimList {u v : List Char} (hne : u ≠ [])
    (hh : isJsWs u.headI = false) (hrh : isJsWs u.reverse.headI = false)
    (h : hasSub u v) : hasSub u (trimList v) := by
  unfold trimList
  have hrne : u.reverse ≠ [] := by simpa using hne
  have h1 := hasSub_dropWhile_ws hne hh h
  have h2 := hasSub_reverse h1
  have h3 := hasSub_dropWhile_ws hrne hrh h2
  have h4 := hasSub_reverse h3
  rwa [List.reverse_reverse] at h4

/-- C7: with the outline `[1 Overview, 2 Installation]` and content that
carries an extra `"# Page: Unexpected Page"` marker between the Overview
and Installation anchors (the Installation anchor's first occurrence after
the Overview anchor lying beyond the extra marker), the splitter produces
exactly two entries, and the Overview entry's text contains the extra
marker verbatim: an unexpected marker is never a delimiter. -/
theorem c7_unexpected_marker_absorbed (a b c2 c0 : List Char)
    (hc0 : c0 = str "# Page: Overview" ++ a ++ str "# Page: Unexpected Page" ++ b ++
      str "# Page: Installation" ++ c2)
    (hwin : ∀ p, 16 ≤ p → p < 39 + a.length →
      ¬ occursAt c0 (str "# Page: Installation") p) :
    ∃ v1 v2,
      splitWikiContents c0 (parseWikiStructure (str "- 1 Overview\n- 2 Installation")) =
        .ok [(str "1 Overview.md", v1), (str "2 Installation.md", v2)] ∧
      hasSub (str "# Page: Unexpected Page") v1 := by
  have hsec : (parseWikiStructure (str "- 1 Overview\n- 2 Installation")).sections =
      [⟨str "1", str "Overview", str "1 Overview"⟩,
       ⟨str "2", str "Installation", str "2 Installation"⟩] := by decide
  have l16 : (str "# Page: Overview").length = 16 := by decide
  have l23 : (str "# Page: Unexpected Page").length = 23 := by decide
  have l20 : (str "# Page: Installation").length = 20 := by decide
  have hc0r : c0 = str "# Page: Overview" ++ (a ++ (str "# Page: Unexpected Page" ++
      (b ++ (str "# Page: Installation" ++ c2)))) := by
    rw [hc0]; simp [List.append_assoc]
  have hx : c0 = (str "# Page: Overview" ++ a ++ str "# Page: Unexpected Page" ++ b) ++
      (str "# Page: Installation" ++ c2) := by
    rw [hc0]; simp [List.append_assoc]
  have hxlen : (str "# Page: Overview" ++ a ++ str "# Page: Unexpected Page" ++ b).length =
      39 + a.length + b.length := by
    simp only [List.length_append, l16, l23]; omega
  have hc0len : c0.length = 59 + a.length + b.length + c2.length := by
    rw [hc0]; simp only [List.length_append, l16, l23, l20]; omega
  have hoccX : occursAt c0 (str "# Page: Installation") (39 + a.length + b.length) := by
    have h := occursAt_append
      (str "# Page: Overview" ++ a ++ str "# Page: Unexpected Page" ++ b)
      (str "# Page: Installation") c2
    rw [List.append_assoc, hxlen] at h
    rw [hx]
    exact h
  cases hfin : firstOccurFrom c0 (str "# Page: Installation") 16 with
  | none => exact absurd hoccX (firstOccurFrom_none hfin _ (by omega))
  | some e =>
    obtain ⟨he16, hocce, hemin⟩ := firstOccurFrom_some hfin
    have heub : e ≤ 39 + a.length + b.length := by
      by_contra hgt
      push_neg at hgt
      exact hemin _ (by omega) (by omega) hoccX
    have helb : 39 + a.length ≤ e := by
      by_contra hlt
      push_neg at hlt
      exact hwin e he16 (by omega) hocce
    have htrim : ¬ trimList c0 = [] := by
      intro hnil
      rw [trimList_eq_nil_iff] at hnil
      have hm : ('#' : Char) ∈ c0 := by
        rw [hc0r]
        exact List.mem_append.mpr (.inl (by decide))
      exact absurd (hnil '#' hm) (by decide)
    have hlead : leadsWith (str "# Page: ") c0 = true := by
      rw [leadsWith_iff]
      refine ⟨str "Overview" ++ (a ++ (str "# Page: Unexpected Page" ++
        (b ++ (str "# Page: Installation" ++ c2)))), ?_⟩
      rw [hc0r]
      have hsplit8 : str "# Page: Overview" = str "# Page: " ++ str "Overview" := by decide
      rw [hsplit8, List.append_assoc]
    rw [splitWikiContents, if_neg htrim, if_neg (by simp [hlead]),
      if_neg (by rw [hsec]; simp), hsec]
    rw [splitLoop, if_pos (show 0 < c0.length by rw [hc0len]; omega)]
    have hpm1 : pageMarker (⟨str "1", str "Overview", str "1 Overview"⟩ : WikiSection) =
        str "# Page: Overview" := by decide
    have hocc0 : occursAt c0 (str "# Page: Overview") 0 := by
      constructor
      · rw [l16, hc0len]; omega
      · rw [List.drop_zero, hc0r]
        exact List.take_left' rfl
    have hm1 : firstOccurFrom c0
        (pageMarker (⟨str "1", str "Overview", str "1 Overview"⟩ : WikiSection)) 0 = some 0 := by
      rw [hpm1]; exact firstOccurFrom_self hocc0
    rw [hm1]
    simp only []
    have hz1 : 0 + (pageMarker (⟨str "1", str "Overview", str "1 Overview"⟩ : WikiSection)).length
        = 16 := by decide
    rw [hz1]
    have hpm2 : pageMarker (⟨str "2", str "Installation", str "2 Installation"⟩ : WikiSection) =
        str "# Page: Installation" := by decide
    have hfnm : findNextMarker c0
        [⟨str "2", str "Installation", str "2 Installation"⟩] 16 = e := by
      rw [findNextMarker, hpm2, hfin]
    rw [hfnm]
    have hk1 : replaceInvalidFilenameCharacters
        (str "1" ++ ' ' :: str "Overview" ++ str ".md") = str "1 Overview.md" := by decide
    rw [hk1, mapSet]
    rw [splitLoop, if_pos (show e < c0.length by rw [hc0len]; omega)]
    have hm2 : firstOccurFrom c0
        (pageMarker (⟨str "2", str "Installation", str "2 Installation"⟩ : WikiSection)) e =
        some e := by
      rw [hpm2]; exact firstOccurFrom_self hocce
    rw [hm2]
    simp only []
    rw [findNextMarker]
    have hk2 : replaceInvalidFilenameCharacters
        (str "2" ++ ' ' :: str "Installation" ++ str ".md") = str "2 Installation.md" := by
      decide
    rw [hk2, mapSet, if_neg (by decide), mapSet, splitLoop]
    refine ⟨_, _, rfl, ?_⟩
    have hdrop : c0.drop 16 = a ++ (str "# Page: Unexpected Page" ++
        (b ++ (str "# Page: Installation" ++ c2))) := by
      rw [hc0r]
      exact List.drop_left' l16
    have htake : hasSub (str "# Page: Unexpected Page") ((c0.drop 16).take (e - 16)) := by
      rw [hdrop, List.take_append_eq_append_take,
        List.take_of_length_le (show a.length ≤ e - 16 by omega),
        List.take_append_eq_append_take,
        List.take_of_length_le (by rw [l23]; omega)]
      exact ⟨a, List.take (e - 16 - a.length - (str "# Page: Unexpected Page").length)
        (b ++ (str "# Page: Installation" ++ c2)), by simp [List.append_assoc]⟩
    have htrimsub : hasSub (str "# Page: Unexpected Page")
        (trimList ((c0.drop 16).take (e - 16))) :=
      hasSub_trimList (by decide) (by decide) (by decide) htake
    exact hasSub_append_left _ (hasSub_append_left ['\n', '\n'] htrimsub)

/-- Witness for C7 at concrete filler text around the three markers. -/
theorem c7_unexpected_marker_absorbed_witness :
    ∃ v1 v2,
      splitWikiContents
        (str "# Page: Overview" ++ str "\n\nalpha." ++ str "# Page: Unexpected Page" ++
          str "\n\nbeta." ++ str "# Page: Installation" ++ str "\n\ngamma.")
        (parseWikiStructure (str "- 1 Overview\n- 2 Installation")) =
        .ok [(str "1 Overview.md", v1), (str "2 Installation.md", v2)] ∧
      hasSub (str "# Page: Unexpected Page") v1 :=
  c7_unexpected_marker_absorbed (str "\n\nalpha.") (str "\n\nbeta.") (str "\n\ngamma.") _
    rfl
    (fun p h1 h2 =>
      (by decide :
        ∀ q, q < 39 + (str "\n\nalpha.").length → 16 ≤ q →
          ¬ occursAt (str "# Page: Overview" ++ str "\n\nalpha." ++
              str "# Page: Unexpected Page" ++ str "\n\nbeta." ++
              str "# Page: Installation" ++ str "\n\ngamma.")
            (str "# Page: Installation") q)
      p h2 h1)

end DeepwikiDL
